import Mathlib

/-!
Shallow embedding of the queue exercises of the `rust-training` repository.

Two groups of definitions:

* `Generics.Fifo` embeds the `Fifo<T>` struct of
  `src/exercises/generics/src/lib.rs` (lines 182-204): a growable vector,
  `put` inserts at index 0 (`self.elements.insert(0, item)`), `pop` removes
  the last element (`self.elements.pop()`).

* `Project` embeds `src/exercises/project/src/lib.rs`: the `Error` enum
  (declared with no variants) and the `Queue` trait.  The repository contains
  only the trait declaration; the two bounded implementations (`Fifo`, `Lifo`)
  the exercise asks for are modelled from the spec (circular buffer with
  `head`/`tail`/`len` for FIFO, top-of-buffer index `len` for LIFO).
-/

namespace Generics

/-- The `Fifo<T>` struct of the generics exercise: a single growable
vector of elements (Rust `Vec<T>`); index 0 is the front of the vector. -/
structure Fifo (T : Type) where
  elements : List T
deriving DecidableEq, Repr

namespace Fifo

/-- `Fifo::new()`: empty vector, no capacity parameter. -/
def new (T : Type) : Fifo T := ⟨[]⟩

/-- `Fifo::put`: `self.elements.insert(0, item)` — inserts at index 0 and
returns unit; it has no error channel and accepts every item. -/
def put (q : Fifo T) (item : T) : Fifo T := ⟨item :: q.elements⟩

/-- `Fifo::pop`: `self.elements.pop()` — removes and returns the last
element of the vector, `none` if the vector is empty. -/
def pop (q : Fifo T) : Option T × Fifo T :=
  match q.elements.getLast? with
  | none => (none, q)
  | some x => (some x, ⟨q.elements.dropLast⟩)

/-- The state after one `pop` call (discarding the returned value). -/
def popState (q : Fifo T) : Fifo T := (q.pop).2

/-- `put` every element of `as`, in order, with no interleaved `pop`. -/
def putList (q : Fifo T) : List T → Fifo T
  | [] => q
  | x :: xs => (q.put x).putList xs

/-- Drain by repeated `pop` until `pop` returns `none`; `fuel` bounds the
number of iterations.  `drainAll` runs it with fuel `q.elements.length`,
which is exactly the number of successful pops, so the loop stops at the
first `none`. -/
def drainLoop : Nat → Fifo T → List T × Fifo T
  | 0, q => ([], q)
  | fuel + 1, q =>
    match q.pop with
    | (some x, q1) =>
      let r := drainLoop fuel q1
      (x :: r.1, r.2)
    | (none, q1) => ([], q1)

/-- Drain the whole queue by repeated `pop`, returning the popped elements
in pop order together with the final state. -/
def drainAll (q : Fifo T) : List T × Fifo T := drainLoop q.elements.length q

end Fifo

end Generics

namespace Project

/-- The `Error` enum of the project exercise, declared at line 8 of
`src/exercises/project/src/lib.rs` as `enum Error {}`: it has no variants,
so it is uninhabited. -/
inductive Error : Type
deriving DecidableEq

/-- Modelled from the spec: the single error kind `QueueFull`, signaled by
`put` exactly when `len == capacity`; it carries no payload.  (The
repository declares only the empty `Error` enum; the spec replaces it by
`QueueFull` for the bounded implementations.) -/
inductive QueueFull : Type
  | queueFull
deriving DecidableEq, Repr

/-- Modelled from the spec: the FIFO implementer of the `Queue` trait,
which is absent from the repository (only the trait is declared).  Data
model from the spec: a fixed-capacity buffer of slots each holding an
element or "empty", a `head` and `tail` index advancing modulo `capacity`,
and an explicit `len` count. -/
structure Fifo (T : Type) where
  buffer : List (Option T)
  capacity : Nat
  head : Nat
  tail : Nat
  len : Nat
deriving DecidableEq, Repr

namespace Fifo

/-- Modelled from the spec: `with_capacity(cap)` allocates a fixed-size
buffer of `cap` empty slots, `len = 0`, `head = tail = 0`. -/
def with_capacity (T : Type) (cap : Nat) : Fifo T :=
  ⟨List.replicate cap none, cap, 0, 0, 0⟩

/-- Modelled from the spec: `is_empty` is `len == 0`. -/
def is_empty (q : Fifo T) : Bool := q.len == 0

/-- Modelled from the spec: `is_full` is `len == capacity`. -/
def is_full (q : Fifo T) : Bool := q.len == q.capacity

/-- Modelled from the spec: `put` fails with `QueueFull` when
`len == capacity`, leaving the state unchanged; otherwise it writes the
item into the slot at `tail`, advances `tail` circularly and increments
`len`.  The pair mirrors Rust's `(&mut self, item) -> Result<(), _>`:
first component the state after the call, second the returned result. -/
def put (q : Fifo T) (item : T) : Fifo T × Except QueueFull Unit :=
  if q.len = q.capacity then
    (q, Except.error QueueFull.queueFull)
  else
    ({ q with
        buffer := q.buffer.set q.tail (some item)
        tail := (q.tail + 1) % q.capacity
        len := q.len + 1 },
     Except.ok ())

/-- Modelled from the spec: `pop` returns `none` on an empty queue without
changing it; otherwise it removes and returns the element at `head`,
empties that slot, advances `head` circularly and decrements `len`. -/
def pop (q : Fifo T) : Option T × Fifo T :=
  if q.len = 0 then
    (none, q)
  else
    (q.buffer.getD q.head none,
     { q with
        buffer := q.buffer.set q.head none
        head := (q.head + 1) % q.capacity
        len := q.len - 1 })

/-- Modelled from the spec: `peek` returns the element at `head` — the next
element to be removed by `pop` — without removing it; `none` if empty. -/
def peek (q : Fifo T) : Option T :=
  if q.len = 0 then none else q.buffer.getD q.head none

/-- `put` every element of `as` in order (a failed `put` leaves the state
unchanged, as `put` specifies). -/
def putList (q : Fifo T) : List T → Fifo T
  | [] => q
  | x :: xs => ((q.put x).1).putList xs

/-- All the `put` calls of `putList` succeeded. -/
def putListOk (q : Fifo T) : List T → Bool
  | [] => true
  | x :: xs =>
    (match (q.put x).2 with
     | Except.ok _ => true
     | Except.error _ => false)
    && ((q.put x).1).putListOk xs

/-- Drain by repeated `pop` until `pop` returns `none`; `fuel` bounds the
iterations and `drainAll` uses fuel `q.len`, the exact number of occupied
slots, so the loop stops at the first `none`. -/
def drainLoop : Nat → Fifo T → List T × Fifo T
  | 0, q => ([], q)
  | fuel + 1, q =>
    match q.pop with
    | (some x, q1) =>
      let r := drainLoop fuel q1
      (x :: r.1, r.2)
    | (none, q1) => ([], q1)

/-- Modelled from the spec: conversion from the queue into an owned
sequence — drains the queue by repeated `pop` in policy order; afterwards
the queue is empty with its capacity unchanged. -/
def drainAll (q : Fifo T) : List T × Fifo T := drainLoop q.len q

/-- Modelled from the spec: conversion from a borrowed sequence — a queue
with capacity equal to the source length, every element `put` in source
order. -/
def from_slice (s : List T) : Fifo T := (with_capacity T s.length).putList s

end Fifo

/-- Modelled from the spec: the LIFO implementer of the `Queue` trait,
absent from the repository.  Data model from the spec: a fixed-capacity
buffer, a contiguous run of occupied slots from index 0 of length `len`,
growing and shrinking at the top; no wraparound indices. -/
structure Lifo (T : Type) where
  buffer : List (Option T)
  capacity : Nat
  len : Nat
deriving DecidableEq, Repr

namespace Lifo

/-- Modelled from the spec: `with_capacity(cap)` allocates `cap` empty
slots with `len = 0`. -/
def with_capacity (T : Type) (cap : Nat) : Lifo T :=
  ⟨List.replicate cap none, cap, 0⟩

/-- Modelled from the spec: `is_empty` is `len == 0`. -/
def is_empty (q : Lifo T) : Bool := q.len == 0

/-- Modelled from the spec: `is_full` is `len == capacity`. -/
def is_full (q : Lifo T) : Bool := q.len == q.capacity

/-- Modelled from the spec: `put` fails with `QueueFull` when
`len == capacity`, leaving the state unchanged; otherwise it writes the
item into the slot at index `len` (the top) and increments `len`. -/
def put (q : Lifo T) (item : T) : Lifo T × Except QueueFull Unit :=
  if q.len = q.capacity then
    (q, Except.error QueueFull.queueFull)
  else
    ({ q with
        buffer := q.buffer.set q.len (some item)
        len := q.len + 1 },
     Except.ok ())

/-- Modelled from the spec: `pop` returns `none` on an empty queue without
changing it; otherwise it removes and returns the newest element, at index
`len - 1`, emptying that slot and decrementing `len`. -/
def pop (q : Lifo T) : Option T × Lifo T :=
  if q.len = 0 then
    (none, q)
  else
    (q.buffer.getD (q.len - 1) none,
     { q with
        buffer := q.buffer.set (q.len - 1) none
        len := q.len - 1 })

/-- Modelled from the spec: `peek` returns the newest element, at index
`len - 1`, without removing it; `none` if empty. -/
def peek (q : Lifo T) : Option T :=
  if q.len = 0 then none else q.buffer.getD (q.len - 1) none

/-- `put` every element of `as` in order (a failed `put` leaves the state
unchanged, as `put` specifies). -/
def putList (q : Lifo T) : List T → Lifo T
  | [] => q
  | x :: xs => ((q.put x).1).putList xs

/-- All the `put` calls of `putList` succeeded. -/
def putListOk (q : Lifo T) : List T → Bool
  | [] => true
  | x :: xs =>
    (match (q.put x).2 with
     | Except.ok _ => true
     | Except.error _ => false)
    && ((q.put x).1).putListOk xs

/-- Drain by repeated `pop` until `pop` returns `none`; `fuel` bounds the
iterations and `drainAll` uses fuel `q.len`. -/
def drainLoop : Nat → Lifo T → List T × Lifo T
  | 0, q => ([], q)
  | fuel + 1, q =>
    match q.pop with
    | (some x, q1) =>
      let r := drainLoop fuel q1
      (x :: r.1, r.2)
    | (none, q1) => ([], q1)

/-- Modelled from the spec: conversion from the queue into an owned
sequence by repeated `pop`. -/
def drainAll (q : Lifo T) : List T × Lifo T := drainLoop q.len q

/-- Modelled from the spec: conversion from a borrowed sequence — a queue
with capacity equal to the source length, every element `put` in source
order. -/
def from_slice (s : List T) : Lifo T := (with_capacity T s.length).putList s

end Lifo

/-- A mutating operation of the `Queue` trait: a `put` of some item or a
`pop`. -/
inductive Op (T : Type) where
  | put (x : T)
  | pop
deriving DecidableEq, Repr

namespace Fifo

/-- The logical content of the circular buffer: the `len` occupied slots
read in removal order, starting at `head` and wrapping modulo
`capacity`. -/
def toListO (q : Fifo T) : List (Option T) :=
  (List.range q.len).map fun i => q.buffer.getD ((q.head + i) % q.capacity) none

/-- The structural invariant of every FIFO queue state reachable from
`with_capacity`: the buffer has exactly `capacity` slots, `len` never
exceeds `capacity`, `head` is a valid index, `tail` is `head + len` modulo
`capacity`, and every logical slot is occupied. -/
structure WF (q : Fifo T) : Prop where
  hbuf : q.buffer.length = q.capacity
  hlen : q.len ≤ q.capacity
  hhead : q.head < q.capacity ∨ (q.capacity = 0 ∧ q.head = 0)
  htail : q.tail = (q.head + q.len) % q.capacity
  hocc : ∀ o ∈ q.toListO, o.isSome = true

/-- Apply one trait operation to the state (a failed `put` or a `pop` on
an empty queue leaves the state unchanged). -/
def applyOp (q : Fifo T) : Op T → Fifo T
  | Op.put x => (q.put x).1
  | Op.pop => (q.pop).2

/-- Apply a sequence of trait operations, left to right. -/
def applyOps (q : Fifo T) (ops : List (Op T)) : Fifo T := ops.foldl applyOp q

end Fifo

namespace Lifo

/-- The logical content of the buffer: the `len` occupied slots, read from
index 0 up; the last entry is the top, removed first. -/
def toListO (q : Lifo T) : List (Option T) :=
  (List.range q.len).map fun i => q.buffer.getD i none

/-- The structural invariant of every LIFO queue state reachable from
`with_capacity`. -/
structure WF (q : Lifo T) : Prop where
  hbuf : q.buffer.length = q.capacity
  hlen : q.len ≤ q.capacity
  hocc : ∀ o ∈ q.toListO, o.isSome = true

/-- Apply one trait operation to the state (a failed `put` or a `pop` on
an empty queue leaves the state unchanged). -/
def applyOp (q : Lifo T) : Op T → Lifo T
  | Op.put x => (q.put x).1
  | Op.pop => (q.pop).2

/-- Apply a sequence of trait operations, left to right. -/
def applyOps (q : Lifo T) (ops : List (Op T)) : Lifo T := ops.foldl applyOp q

end Lifo

end Project

/-! ## Helper lemmas on buffer slots and circular indices -/

/-- Writing a slot and reading it back yields the written value. -/
theorem getD_set_self {T : Type} (l : List (Option T)) (i : Nat) (x : Option T)
    (h : i < l.length) : (l.set i x).getD i none = x := by
  rw [List.getD_eq_getElem _ _ (by simpa using h), List.getElem_set]
  simp

/-- Writing a slot does not change the other slots. -/
theorem getD_set_other {T : Type} (l : List (Option T)) {i j : Nat} (x : Option T)
    (h : i ≠ j) : (l.set i x).getD j none = l.getD j none := by
  by_cases hj : j < l.length
  · rw [List.getD_eq_getElem _ _ (by simpa using hj), List.getD_eq_getElem _ _ hj,
      List.getElem_set]
    simp [h]
  · rw [List.getD_eq_default _ _ (by simpa using Nat.le_of_not_lt hj),
      List.getD_eq_default _ _ (Nat.le_of_not_lt hj)]

/-- Two circular offsets below `cap` from the same base land on distinct
slots. -/
theorem mod_add_ne {cap h i j : Nat} (hij : i < j) (hj : j < cap) :
    (h + i) % cap ≠ (h + j) % cap := by
  intro heq
  have h1 : i ≡ j [MOD cap] := Nat.ModEq.add_left_cancel' h heq
  have h2 : i % cap = j % cap := h1
  rw [Nat.mod_eq_of_lt (Nat.lt_trans hij hj), Nat.mod_eq_of_lt hj] at h2
  omega

/-! ## FIFO: the spec-modelled circular buffer refines a list queue -/

/-- The logical content has exactly `len` entries. -/
theorem fifo_toListO_length {T : Type} (q : Project.Fifo T) :
    q.toListO.length = q.len := by
  simp [Project.Fifo.toListO]

/-- A fresh FIFO queue satisfies the invariant. -/
theorem fifo_wf_with_capacity (T : Type) (cap : Nat) :
    (Project.Fifo.with_capacity T cap).WF := by
  refine ⟨?_, ?_, ?_, ?_, ?_⟩
  · simp [Project.Fifo.with_capacity]
  · simp [Project.Fifo.with_capacity]
  · rcases Nat.eq_zero_or_pos cap with h | h
    · right; simp [Project.Fifo.with_capacity, h]
    · left; simpa [Project.Fifo.with_capacity] using h
  · simp [Project.Fifo.with_capacity]
  · intro o ho
    simp [Project.Fifo.toListO, Project.Fifo.with_capacity] at ho

/-- A fresh FIFO queue has empty logical content. -/
theorem fifo_toListO_with_capacity (T : Type) (cap : Nat) :
    (Project.Fifo.with_capacity T cap).toListO = [] := by
  simp [Project.Fifo.toListO, Project.Fifo.with_capacity]

/-- A successful `put` on a non-full well-formed FIFO queue appends the
item to the logical content, preserves the invariant and the capacity, and
increments `len`. -/
theorem fifo_put_spec {T : Type} (q : Project.Fifo T) (x : T) (hwf : q.WF)
    (hlt : q.len < q.capacity) :
    (q.put x).1.WF ∧ (q.put x).1.toListO = q.toListO ++ [some x] ∧
      (q.put x).1.len = q.len + 1 ∧ (q.put x).1.capacity = q.capacity ∧
      (q.put x).2 = Except.ok () := by
  have hne : q.len ≠ q.capacity := Nat.ne_of_lt hlt
  have hcap : 0 < q.capacity := Nat.lt_of_le_of_lt (Nat.zero_le _) hlt
  have hq1 : (q.put x).1 =
      { q with
          buffer := q.buffer.set q.tail (some x)
          tail := (q.tail + 1) % q.capacity
          len := q.len + 1 } := by
    simp [Project.Fifo.put, hne]
  have hq2 : (q.put x).2 = Except.ok () := by
    simp [Project.Fifo.put, hne]
  have htllt : q.tail < q.buffer.length := by
    rw [hwf.hbuf, hwf.htail]
    exact Nat.mod_lt _ hcap
  have hlist : (q.put x).1.toListO = q.toListO ++ [some x] := by
    rw [hq1]
    simp only [Project.Fifo.toListO]
    rw [List.range_succ, List.map_append]
    congr 1
    · apply List.map_congr_left
      intro i hi
      rw [List.mem_range] at hi
      apply getD_set_other
      rw [hwf.htail]
      exact (mod_add_ne hi hlt).symm
    · simp only [List.map_cons, List.map_nil]
      rw [← hwf.htail, getD_set_self _ _ _ htllt]
  refine ⟨⟨?_, ?_, ?_, ?_, ?_⟩, hlist, ?_, ?_, hq2⟩
  · rw [hq1]
    simp [List.length_set, hwf.hbuf]
  · rw [hq1]
    simp only
    omega
  · rw [hq1]
    simp only
    exact hwf.hhead
  · rw [hq1]
    simp only
    rw [hwf.htail, Nat.mod_add_mod]
    congr 1
  · intro o ho
    rw [hlist, List.mem_append] at ho
    rcases ho with ho | ho
    · exact hwf.hocc o ho
    · rw [List.mem_singleton] at ho
      subst ho
      rfl
  · rw [hq1]
  · rw [hq1]

/-- A `pop` on a non-empty well-formed FIFO queue returns the first entry
of the logical content (the oldest element), leaves the remaining entries
in order, preserves the invariant and the capacity, and decrements
`len`. -/
theorem fifo_pop_spec {T : Type} (q : Project.Fifo T) (hwf : q.WF)
    (hne : q.len ≠ 0) :
    (q.pop).2.WF ∧ q.toListO = (q.pop).1 :: (q.pop).2.toListO ∧
      ((q.pop).1).isSome = true ∧ (q.pop).2.len = q.len - 1 ∧
      (q.pop).2.capacity = q.capacity := by
  have hcap : 0 < q.capacity := Nat.lt_of_lt_of_le (Nat.pos_of_ne_zero hne) hwf.hlen
  have hhead : q.head < q.capacity := by
    rcases hwf.hhead with h | h
    · exact h
    · omega
  obtain ⟨m, hm⟩ : ∃ m, q.len = m + 1 := ⟨q.len - 1, by omega⟩
  have hq1 : (q.pop).1 = q.buffer.getD q.head none := by
    simp [Project.Fifo.pop, hne]
  have hq2 : (q.pop).2 =
      { q with
          buffer := q.buffer.set q.head none
          head := (q.head + 1) % q.capacity
          len := q.len - 1 } := by
    simp [Project.Fifo.pop, hne]
  have hfirst : q.buffer.getD ((q.head + 0) % q.capacity) none
      = q.buffer.getD q.head none := by
    rw [Nat.add_zero, Nat.mod_eq_of_lt hhead]
  have hlist : q.toListO = (q.pop).1 :: (q.pop).2.toListO := by
    rw [hq1, hq2]
    simp only [Project.Fifo.toListO, hm, Nat.add_sub_cancel]
    rw [List.range_succ_eq_map, List.map_cons, List.map_map]
    rw [← hfirst]
    congr 1
    apply List.map_congr_left
    intro i hi
    rw [List.mem_range] at hi
    have hne2 : q.head ≠ (q.head + 1 + i) % q.capacity := by
      have h0 : (q.head + 0) % q.capacity ≠ (q.head + (1 + i)) % q.capacity := by
        have hl := hwf.hlen
        apply mod_add_ne
        · omega
        · omega
      rw [Nat.add_zero, Nat.mod_eq_of_lt hhead] at h0
      rw [show q.head + 1 + i = q.head + (1 + i) from by omega]
      exact h0
    rw [Nat.mod_add_mod, getD_set_other _ _ hne2]
    simp only [Function.comp]
    congr 2
    omega
  have hsome : ((q.pop).1).isSome = true := by
    apply hwf.hocc
    rw [hlist]
    exact List.mem_cons_self _ _
  refine ⟨⟨?_, ?_, ?_, ?_, ?_⟩, hlist, hsome, ?_, ?_⟩
  · rw [hq2]
    simp [List.length_set, hwf.hbuf]
  · rw [hq2]
    simp only
    have := hwf.hlen
    omega
  · rw [hq2]
    simp only
    left
    exact Nat.mod_lt _ hcap
  · rw [hq2]
    simp only
    rw [hwf.htail, Nat.mod_add_mod]
    congr 1
    omega
  · intro o ho
    apply hwf.hocc
    rw [hlist]
    exact List.mem_cons_of_mem _ (by rw [hq2] at ho ⊢; exact ho)
  · rw [hq2]
  · rw [hq2]

/-- Draining a well-formed FIFO queue with fuel equal to `len` produces the
values of the logical content in order and leaves an empty, well-formed
queue of the same capacity. -/
theorem fifo_drainLoop_spec {T : Type} (fuel : Nat) (q : Project.Fifo T)
    (hwf : q.WF) (hfuel : q.len = fuel) :
    (Project.Fifo.drainLoop fuel q).1 = q.toListO.reduceOption ∧
      (Project.Fifo.drainLoop fuel q).2.len = 0 ∧
      (Project.Fifo.drainLoop fuel q).2.capacity = q.capacity ∧
      (Project.Fifo.drainLoop fuel q).2.WF := by
  induction fuel generalizing q with
  | zero =>
    have h0 : q.toListO = [] := by
      simp [Project.Fifo.toListO, hfuel]
    exact ⟨by simp [Project.Fifo.drainLoop, h0], by simp [Project.Fifo.drainLoop, hfuel],
      by simp [Project.Fifo.drainLoop], by simpa [Project.Fifo.drainLoop] using hwf⟩
  | succ fuel ih =>
    have hne : q.len ≠ 0 := by omega
    obtain ⟨hwf1, hlist, hsome, hlen1, hcap1⟩ := fifo_pop_spec q hwf hne
    rcases hqp : q.pop with ⟨p1, q1⟩
    rw [hqp] at hlist hsome hlen1 hcap1 hwf1
    simp only at hlist hsome hlen1 hcap1 hwf1
    obtain ⟨a, ha⟩ := Option.isSome_iff_exists.mp hsome
    subst ha
    obtain ⟨ih1, ih2, ih3, ih4⟩ := ih q1 hwf1 (by omega)
    refine ⟨?_, ?_, ?_, ?_⟩
    · simp only [Project.Fifo.drainLoop, hqp]
      rw [hlist, List.reduceOption_cons_of_some, ih1]
    · simp only [Project.Fifo.drainLoop, hqp]
      exact ih2
    · simp only [Project.Fifo.drainLoop, hqp]
      rw [ih3, hcap1]
    · simp only [Project.Fifo.drainLoop, hqp]
      exact ih4

/-- `put`ting a list of elements into a well-formed FIFO queue with enough
free room succeeds at every step, appends the elements to the logical
content in order, and adds the list length to `len`. -/
theorem fifo_putList_spec {T : Type} (as : List T) (q : Project.Fifo T)
    (hwf : q.WF) (hcap : q.len + as.length ≤ q.capacity) :
    (q.putList as).WF ∧ (q.putList as).toListO = q.toListO ++ as.map some ∧
      (q.putList as).len = q.len + as.length ∧
      (q.putList as).capacity = q.capacity ∧
      q.putListOk as = true := by
  induction as generalizing q with
  | nil =>
    exact ⟨hwf, by simp [Project.Fifo.putList], by simp [Project.Fifo.putList],
      by simp [Project.Fifo.putList], by simp [Project.Fifo.putListOk]⟩
  | cons x xs ih =>
    have hlt : q.len < q.capacity := by
      simp only [List.length_cons] at hcap
      omega
    obtain ⟨hwf1, hlist1, hlen1, hcap1, hok1⟩ := fifo_put_spec q x hwf hlt
    obtain ⟨ih1, ih2, ih3, ih4, ih5⟩ := ih (q.put x).1 hwf1 (by
      rw [hlen1, hcap1]
      simp only [List.length_cons] at hcap
      omega)
    have hstep : q.putList (x :: xs) = ((q.put x).1).putList xs := rfl
    refine ⟨by rw [hstep]; exact ih1, ?_, ?_, ?_, ?_⟩
    · rw [hstep, ih2, hlist1]
      simp
    · rw [hstep, ih3, hlen1]
      simp only [List.length_cons]
      omega
    · rw [hstep, ih4, hcap1]
    · have hstep2 : q.putListOk (x :: xs)
          = ((match (q.put x).2 with
              | Except.ok _ => true
              | Except.error _ => false)
            && ((q.put x).1).putListOk xs) := rfl
      rw [hstep2, hok1, ih5]
      rfl

/-- Every trait operation preserves the FIFO invariant and the capacity:
a failed `put` and a `pop` on an empty queue leave the state unchanged,
and the successful cases are covered by the `put`/`pop` specifications. -/
theorem fifo_applyOp_wf {T : Type} (q : Project.Fifo T) (o : Project.Op T)
    (hwf : q.WF) : (q.applyOp o).WF ∧ (q.applyOp o).capacity = q.capacity := by
  cases o with
  | put x =>
    by_cases h : q.len = q.capacity
    · have hid : (q.put x).1 = q := by simp [Project.Fifo.put, h]
      simp only [Project.Fifo.applyOp, hid]
      exact ⟨hwf, trivial⟩
    · have hlt : q.len < q.capacity := by
        have := hwf.hlen
        omega
      obtain ⟨h1, _, _, h4, _⟩ := fifo_put_spec q x hwf hlt
      exact ⟨h1, h4⟩
  | pop =>
    by_cases h : q.len = 0
    · have hid : (q.pop).2 = q := by simp [Project.Fifo.pop, h]
      simp only [Project.Fifo.applyOp, hid]
      exact ⟨hwf, trivial⟩
    · obtain ⟨h1, _, _, _, h5⟩ := fifo_pop_spec q hwf h
      exact ⟨h1, h5⟩

/-- Any sequence of trait operations preserves the FIFO invariant and the
capacity. -/
theorem fifo_applyOps_wf {T : Type} (ops : List (Project.Op T))
    (q : Project.Fifo T) (hwf : q.WF) :
    (q.applyOps ops).WF ∧ (q.applyOps ops).capacity = q.capacity := by
  induction ops generalizing q with
  | nil => exact ⟨hwf, rfl⟩
  | cons o os ih =>
    obtain ⟨h1, h2⟩ := fifo_applyOp_wf q o hwf
    obtain ⟨h3, h4⟩ := ih (q.applyOp o) h1
    have hstep : q.applyOps (o :: os) = (q.applyOp o).applyOps os := rfl
    rw [hstep]
    exact ⟨h3, h4.trans h2⟩

/-- `peek` returns exactly the element the next `pop` would remove, on any
FIFO state. -/
theorem fifo_peek_eq_pop_fst {T : Type} (q : Project.Fifo T) :
    q.peek = (q.pop).1 := by
  by_cases h : q.len = 0 <;> simp [Project.Fifo.peek, Project.Fifo.pop, h]

/-- On a well-formed FIFO state, `peek` returns nothing exactly when the
queue is empty. -/
theorem fifo_peek_none_iff {T : Type} (q : Project.Fifo T) (hwf : q.WF) :
    q.peek = none ↔ q.is_empty = true := by
  constructor
  · intro hp
    by_contra hne1
    have hne : q.len ≠ 0 := by
      simpa [Project.Fifo.is_empty] using hne1
    obtain ⟨_, _, hsome, _, _⟩ := fifo_pop_spec q hwf hne
    rw [← fifo_peek_eq_pop_fst, hp] at hsome
    simp at hsome
  · intro he
    have h0 : q.len = 0 := by
      simpa [Project.Fifo.is_empty] using he
    simp [Project.Fifo.peek, h0]

/-! ## LIFO: the spec-modelled stack buffer refines a list stack -/

/-- The logical content has exactly `len` entries. -/
theorem lifo_toListO_length {T : Type} (q : Project.Lifo T) :
    q.toListO.length = q.len := by
  simp [Project.Lifo.toListO]

/-- A fresh LIFO queue satisfies the invariant. -/
theorem lifo_wf_with_capacity (T : Type) (cap : Nat) :
    (Project.Lifo.with_capacity T cap).WF := by
  refine ⟨?_, ?_, ?_⟩
  · simp [Project.Lifo.with_capacity]
  · simp [Project.Lifo.with_capacity]
  · intro o ho
    simp [Project.Lifo.toListO, Project.Lifo.with_capacity] at ho

/-- A successful `put` on a non-full well-formed LIFO queue appends the
item at the top of the logical content, preserves the invariant and the
capacity, and increments `len`. -/
theorem lifo_put_spec {T : Type} (q : Project.Lifo T) (x : T) (hwf : q.WF)
    (hlt : q.len < q.capacity) :
    (q.put x).1.WF ∧ (q.put x).1.toListO = q.toListO ++ [some x] ∧
      (q.put x).1.len = q.len + 1 ∧ (q.put x).1.capacity = q.capacity ∧
      (q.put x).2 = Except.ok () := by
  have hne : q.len ≠ q.capacity := Nat.ne_of_lt hlt
  have hq1 : (q.put x).1 =
      { q with
          buffer := q.buffer.set q.len (some x)
          len := q.len + 1 } := by
    simp [Project.Lifo.put, hne]
  have hq2 : (q.put x).2 = Except.ok () := by
    simp [Project.Lifo.put, hne]
  have hlenlt : q.len < q.buffer.length := by
    rw [hwf.hbuf]
    exact hlt
  have hlist : (q.put x).1.toListO = q.toListO ++ [some x] := by
    rw [hq1]
    simp only [Project.Lifo.toListO]
    rw [List.range_succ, List.map_append]
    congr 1
    · apply List.map_congr_left
      intro i hi
      rw [List.mem_range] at hi
      exact getD_set_other _ _ (by omega)
    · simp only [List.map_cons, List.map_nil]
      rw [getD_set_self _ _ _ hlenlt]
  refine ⟨⟨?_, ?_, ?_⟩, hlist, ?_, ?_, hq2⟩
  · rw [hq1]
    simp [List.length_set, hwf.hbuf]
  · rw [hq1]
    simp only
    omega
  · intro o ho
    rw [hlist, List.mem_append] at ho
    rcases ho with ho | ho
    · exact hwf.hocc o ho
    · rw [List.mem_singleton] at ho
      subst ho
      rfl
  · rw [hq1]
  · rw [hq1]

/-- A `pop` on a non-empty well-formed LIFO queue returns the last entry
of the logical content (the newest element), leaves the remaining entries
in order, preserves the invariant and the capacity, and decrements
`len`. -/
theorem lifo_pop_spec {T : Type} (q : Project.Lifo T) (hwf : q.WF)
    (hne : q.len ≠ 0) :
    (q.pop).2.WF ∧ q.toListO = (q.pop).2.toListO ++ [(q.pop).1] ∧
      ((q.pop).1).isSome = true ∧ (q.pop).2.len = q.len - 1 ∧
      (q.pop).2.capacity = q.capacity := by
  obtain ⟨m, hm⟩ : ∃ m, q.len = m + 1 := ⟨q.len - 1, by omega⟩
  have hq1 : (q.pop).1 = q.buffer.getD (q.len - 1) none := by
    simp [Project.Lifo.pop, hne]
  have hq2 : (q.pop).2 =
      { q with
          buffer := q.buffer.set (q.len - 1) none
          len := q.len - 1 } := by
    simp [Project.Lifo.pop, hne]
  have hlist : q.toListO = (q.pop).2.toListO ++ [(q.pop).1] := by
    rw [hq1, hq2]
    simp only [Project.Lifo.toListO, hm, Nat.add_sub_cancel]
    rw [List.range_succ, List.map_append]
    congr 1
    apply List.map_congr_left
    intro i hi
    rw [List.mem_range] at hi
    exact (getD_set_other _ _ (by omega)).symm
  have hsome : ((q.pop).1).isSome = true := by
    apply hwf.hocc
    rw [hlist, List.mem_append]
    right
    exact List.mem_singleton.mpr rfl
  refine ⟨⟨?_, ?_, ?_⟩, hlist, hsome, ?_, ?_⟩
  · rw [hq2]
    simp [List.length_set, hwf.hbuf]
  · rw [hq2]
    simp only
    have := hwf.hlen
    omega
  · intro o ho
    apply hwf.hocc
    rw [hlist, List.mem_append]
    left
    exact ho
  · rw [hq2]
  · rw [hq2]

/-- Draining a well-formed LIFO queue with fuel equal to `len` produces
the values of the logical content in reverse order and leaves an empty,
well-formed queue of the same capacity. -/
theorem lifo_drainLoop_spec {T : Type} (fuel : Nat) (q : Project.Lifo T)
    (hwf : q.WF) (hfuel : q.len = fuel) :
    (Project.Lifo.drainLoop fuel q).1 = q.toListO.reduceOption.reverse ∧
      (Project.Lifo.drainLoop fuel q).2.len = 0 ∧
      (Project.Lifo.drainLoop fuel q).2.capacity = q.capacity ∧
      (Project.Lifo.drainLoop fuel q).2.WF := by
  induction fuel generalizing q with
  | zero =>
    have h0 : q.toListO = [] := by
      simp [Project.Lifo.toListO, hfuel]
    exact ⟨by simp [Project.Lifo.drainLoop, h0], by simp [Project.Lifo.drainLoop, hfuel],
      by simp [Project.Lifo.drainLoop], by simpa [Project.Lifo.drainLoop] using hwf⟩
  | succ fuel ih =>
    have hne : q.len ≠ 0 := by omega
    obtain ⟨hwf1, hlist, hsome, hlen1, hcap1⟩ := lifo_pop_spec q hwf hne
    rcases hqp : q.pop with ⟨p1, q1⟩
    rw [hqp] at hlist hsome hlen1 hcap1 hwf1
    simp only at hlist hsome hlen1 hcap1 hwf1
    obtain ⟨a, ha⟩ := Option.isSome_iff_exists.mp hsome
    subst ha
    obtain ⟨ih1, ih2, ih3, ih4⟩ := ih q1 hwf1 (by omega)
    refine ⟨?_, ?_, ?_, ?_⟩
    · simp only [Project.Lifo.drainLoop, hqp]
      rw [hlist, List.reduceOption_append, List.reduceOption_cons_of_some,
        List.reduceOption_nil, List.reverse_append, ih1]
      rfl
    · simp only [Project.Lifo.drainLoop, hqp]
      exact ih2
    · simp only [Project.Lifo.drainLoop, hqp]
      rw [ih3, hcap1]
    · simp only [Project.Lifo.drainLoop, hqp]
      exact ih4

/-- `put`ting a list of elements into a well-formed LIFO queue with
enough free room succeeds at every step, appends the elements to the
logical content in order, and adds the list length to `len`. -/
theorem lifo_putList_spec {T : Type} (as : List T) (q : Project.Lifo T)
    (hwf : q.WF) (hcap : q.len + as.length ≤ q.capacity) :
    (q.putList as).WF ∧ (q.putList as).toListO = q.toListO ++ as.map some ∧
      (q.putList as).len = q.len + as.length ∧
      (q.putList as).capacity = q.capacity ∧
      q.putListOk as = true := by
  induction as generalizing q with
  | nil =>
    exact ⟨hwf, by simp [Project.Lifo.putList], by simp [Project.Lifo.putList],
      by simp [Project.Lifo.putList], by simp [Project.Lifo.putListOk]⟩
  | cons x xs ih =>
    have hlt : q.len < q.capacity := by
      simp only [List.length_cons] at hcap
      omega
    obtain ⟨hwf1, hlist1, hlen1, hcap1, hok1⟩ := lifo_put_spec q x hwf hlt
    obtain ⟨ih1, ih2, ih3, ih4, ih5⟩ := ih (q.put x).1 hwf1 (by
      rw [hlen1, hcap1]
      simp only [List.length_cons] at hcap
      omega)
    have hstep : q.putList (x :: xs) = ((q.put x).1).putList xs := rfl
    refine ⟨by rw [hstep]; exact ih1, ?_, ?_, ?_, ?_⟩
    · rw [hstep, ih2, hlist1]
      simp
    · rw [hstep, ih3, hlen1]
      simp only [List.length_cons]
      omega
    · rw [hstep, ih4, hcap1]
    · have hstep2 : q.putListOk (x :: xs)
          = ((match (q.put x).2 with
              | Except.ok _ => true
              | Except.error _ => false)
            && ((q.put x).1).putListOk xs) := rfl
      rw [hstep2, hok1, ih5]
      rfl

/-- Every trait operation preserves the LIFO invariant and the
capacity. -/
theorem lifo_applyOp_wf {T : Type} (q : Project.Lifo T) (o : Project.Op T)
    (hwf : q.WF) : (q.applyOp o).WF ∧ (q.applyOp o).capacity = q.capacity := by
  cases o with
  | put x =>
    by_cases h : q.len = q.capacity
    · have hid : (q.put x).1 = q := by simp [Project.Lifo.put, h]
      simp only [Project.Lifo.applyOp, hid]
      exact ⟨hwf, trivial⟩
    · have hlt : q.len < q.capacity := by
        have := hwf.hlen
        omega
      obtain ⟨h1, _, _, h4, _⟩ := lifo_put_spec q x hwf hlt
      exact ⟨h1, h4⟩
  | pop =>
    by_cases h : q.len = 0
    · have hid : (q.pop).2 = q := by simp [Project.Lifo.pop, h]
      simp only [Project.Lifo.applyOp, hid]
      exact ⟨hwf, trivial⟩
    · obtain ⟨h1, _, _, _, h5⟩ := lifo_pop_spec q hwf h
      exact ⟨h1, h5⟩

/-- Any sequence of trait operations preserves the LIFO invariant and the
capacity. -/
theorem lifo_applyOps_wf {T : Type} (ops : List (Project.Op T))
    (q : Project.Lifo T) (hwf : q.WF) :
    (q.applyOps ops).WF ∧ (q.applyOps ops).capacity = q.capacity := by
  induction ops generalizing q with
  | nil => exact ⟨hwf, rfl⟩
  | cons o os ih =>
    obtain ⟨h1, h2⟩ := lifo_applyOp_wf q o hwf
    obtain ⟨h3, h4⟩ := ih (q.applyOp o) h1
    have hstep : q.applyOps (o :: os) = (q.applyOp o).applyOps os := rfl
    rw [hstep]
    exact ⟨h3, h4.trans h2⟩

/-- `peek` returns exactly the element the next `pop` would remove, on any
LIFO state. -/
theorem lifo_peek_eq_pop_fst {T : Type} (q : Project.Lifo T) :
    q.peek = (q.pop).1 := by
  by_cases h : q.len = 0 <;> simp [Project.Lifo.peek, Project.Lifo.pop, h]

/-- On a well-formed LIFO state, `peek` returns nothing exactly when the
queue is empty. -/
theorem lifo_peek_none_iff {T : Type} (q : Project.Lifo T) (hwf : q.WF) :
    q.peek = none ↔ q.is_empty = true := by
  constructor
  · intro hp
    by_contra hne1
    have hne : q.len ≠ 0 := by
      simpa [Project.Lifo.is_empty] using hne1
    obtain ⟨_, _, hsome, _, _⟩ := lifo_pop_spec q hwf hne
    rw [← lifo_peek_eq_pop_fst, hp] at hsome
    simp at hsome
  · intro he
    have h0 : q.len = 0 := by
      simpa [Project.Lifo.is_empty] using he
    simp [Project.Lifo.peek, h0]

/-! ## Generics exercise: the unbounded vector-backed Fifo -/

/-- `put`ting a list prepends it, reversed, to the backing vector (each
`put` is an insertion at index 0). -/
theorem gfifo_putList_elements {T : Type} (as : List T) (q : Generics.Fifo T) :
    (q.putList as).elements = as.reverse ++ q.elements := by
  induction as generalizing q with
  | nil => simp [Generics.Fifo.putList]
  | cons x xs ih =>
    have hstep : q.putList (x :: xs) = (q.put x).putList xs := rfl
    rw [hstep, ih]
    simp [Generics.Fifo.put]

/-- The value returned by `pop` is the last element of the backing
vector. -/
theorem gfifo_pop_fst {T : Type} (q : Generics.Fifo T) :
    (q.pop).1 = q.elements.getLast? := by
  unfold Generics.Fifo.pop
  cases h : q.elements.getLast? <;> simp

/-- Draining the vector-backed Fifo with fuel equal to the vector length
returns the elements in reverse vector order (the insertion order of the
`put` calls) and empties the queue. -/
theorem gfifo_drainLoop_elements {T : Type} (fuel : Nat) (q : Generics.Fifo T)
    (hfuel : q.elements.length = fuel) :
    Generics.Fifo.drainLoop fuel q = (q.elements.reverse, ⟨[]⟩) := by
  induction fuel generalizing q with
  | zero =>
    have h0 : q.elements = [] := List.length_eq_zero.mp hfuel
    cases q
    simp_all [Generics.Fifo.drainLoop]
  | succ fuel ih =>
    have hne : q.elements ≠ [] := by
      intro h
      rw [h] at hfuel
      simp at hfuel
    have hlast : q.elements.getLast? = some (q.elements.getLast hne) :=
      List.getLast?_eq_getLast_of_ne_nil hne
    have hpop : q.pop = (some (q.elements.getLast hne), ⟨q.elements.dropLast⟩) := by
      unfold Generics.Fifo.pop
      rw [hlast]
    have hdrop : (q.elements.dropLast).length = fuel := by
      rw [List.length_dropLast, hfuel]
      rfl
    have ihd := ih ⟨q.elements.dropLast⟩ hdrop
    simp only [Generics.Fifo.drainLoop, hpop, ihd]
    have hsplit : q.elements.dropLast ++ [q.elements.getLast hne] = q.elements :=
      List.dropLast_append_getLast hne
    have hrev : q.elements.reverse
        = q.elements.getLast hne :: q.elements.dropLast.reverse := by
      conv_lhs => rw [← hsplit]
      rw [List.reverse_append]
      simp
    rw [hrev]

/-- One `pop` shortens the vector by one (and leaves an empty vector
empty). -/
theorem gfifo_popState_length {T : Type} (q : Generics.Fifo T) :
    (q.popState).elements.length = q.elements.length - 1 := by
  unfold Generics.Fifo.popState Generics.Fifo.pop
  cases h : q.elements.getLast? with
  | none =>
    have h0 : q.elements = [] := by
      cases he : q.elements with
      | nil => rfl
      | cons y ys =>
        rw [he] at h
        simp [List.getLast?_eq_getLast_of_ne_nil (List.cons_ne_nil y ys)] at h
    simp [h0]
  | some x =>
    simp [List.length_dropLast]

/-- `k` iterated pops shorten the vector by `k`. -/
theorem gfifo_iterate_popState_length {T : Type} (k : Nat) (q : Generics.Fifo T) :
    ((Generics.Fifo.popState)^[k] q).elements.length = q.elements.length - k := by
  induction k generalizing q with
  | zero => rfl
  | succ k ih =>
    rw [Function.iterate_succ_apply', gfifo_popState_length, ih]
    omega

/-! ## Miscellaneous list facts used by the claims -/

/-- Reducing a list of definitely-present options recovers the values. -/
theorem reduceOption_map_some {T : Type} (as : List T) :
    (as.map some).reduceOption = as := by
  induction as with
  | nil => rfl
  | cons x xs ih => simp [List.reduceOption_cons_of_some, ih]

/-! ## The claims -/

/-- C1: FIFO order law — for every sequence `a1..an` inserted by successful
`put` calls with no interleaved `pop`, draining the FIFO queue by repeated
`pop` yields exactly `a1, a2, …, an`, each exactly once, in that order.
Proved both for the vector-backed `Fifo` of the generics exercise (whose
final state is the empty queue) and for the spec-modelled bounded FIFO
queue, where all `n ≤ cap` `put` calls succeed. -/
theorem fifo_order_law {T : Type} (as : List T) (cap : Nat)
    (hcap : as.length ≤ cap) :
    ((Generics.Fifo.new T).putList as).drainAll = (as, ⟨[]⟩) ∧
      (Project.Fifo.with_capacity T cap).putListOk as = true ∧
      ((Project.Fifo.with_capacity T cap).putList as).drainAll.1 = as := by
  have hfree : (Project.Fifo.with_capacity T cap).len + as.length
      ≤ (Project.Fifo.with_capacity T cap).capacity := by
    simp only [Project.Fifo.with_capacity]
    omega
  obtain ⟨h1, h2, _, _, h5⟩ :=
    fifo_putList_spec as (Project.Fifo.with_capacity T cap)
      (fifo_wf_with_capacity T cap) hfree
  refine ⟨?_, h5, ?_⟩
  · have he : ((Generics.Fifo.new T).putList as).elements = as.reverse := by
      rw [gfifo_putList_elements]
      simp [Generics.Fifo.new]
    have hd := gfifo_drainLoop_elements
      ((Generics.Fifo.new T).putList as).elements.length
      ((Generics.Fifo.new T).putList as) rfl
    rw [Generics.Fifo.drainAll, hd, he, List.reverse_reverse]
  · have hd := fifo_drainLoop_spec
      ((Project.Fifo.with_capacity T cap).putList as).len
      ((Project.Fifo.with_capacity T cap).putList as) h1 rfl
    rw [Project.Fifo.drainAll, hd.1, h2, fifo_toListO_with_capacity,
      List.nil_append, reduceOption_map_some]

/-- C1 witness: the FIFO order law instantiated at the list `[1, 2, 3]`
and capacity 3. -/
theorem fifo_order_law_witness :
    ([1, 2, 3] : List Nat).length ≤ 3 ∧
      (((Generics.Fifo.new Nat).putList [1, 2, 3]).drainAll = ([1, 2, 3], ⟨[]⟩) ∧
        (Project.Fifo.with_capacity Nat 3).putListOk [1, 2, 3] = true ∧
        ((Project.Fifo.with_capacity Nat 3).putList [1, 2, 3]).drainAll.1
          = [1, 2, 3]) :=
  ⟨by decide, fifo_order_law [1, 2, 3] 3 (by decide)⟩

/-- C2: LIFO order law — for every sequence `a1..an` inserted by successful
`put` calls with no interleaved `pop`, draining the spec-modelled LIFO
queue by repeated `pop` yields exactly `an, …, a2, a1`, the reverse of the
insertion order; all `n ≤ cap` `put` calls succeed. -/
theorem lifo_order_law {T : Type} (as : List T) (cap : Nat)
    (hcap : as.length ≤ cap) :
    (Project.Lifo.with_capacity T cap).putListOk as = true ∧
      ((Project.Lifo.with_capacity T cap).putList as).drainAll.1 = as.reverse := by
  have hfree : (Project.Lifo.with_capacity T cap).len + as.length
      ≤ (Project.Lifo.with_capacity T cap).capacity := by
    simp only [Project.Lifo.with_capacity]
    omega
  obtain ⟨h1, h2, _, _, h5⟩ :=
    lifo_putList_spec as (Project.Lifo.with_capacity T cap)
      (lifo_wf_with_capacity T cap) hfree
  refine ⟨h5, ?_⟩
  have hd := lifo_drainLoop_spec
    ((Project.Lifo.with_capacity T cap).putList as).len
    ((Project.Lifo.with_capacity T cap).putList as) h1 rfl
  have h0 : (Project.Lifo.with_capacity T cap).toListO = [] := by
    simp [Project.Lifo.toListO, Project.Lifo.with_capacity]
  rw [Project.Lifo.drainAll, hd.1, h2, h0, List.nil_append, reduceOption_map_some]

/-- C2 witness: the LIFO order law instantiated at the list `[1, 2, 3]`
and capacity 5 (drain yields `[3, 2, 1]`). -/
theorem lifo_order_law_witness :
    ([1, 2, 3] : List Nat).length ≤ 5 ∧
      ((Project.Lifo.with_capacity Nat 5).putListOk [1, 2, 3] = true ∧
        ((Project.Lifo.with_capacity Nat 5).putList [1, 2, 3]).drainAll.1
          = [3, 2, 1]) :=
  ⟨by decide, lifo_order_law [1, 2, 3] 5 (by decide)⟩

/-- C3: `put` returns `QueueFull` if and only if `len = capacity` at call
time, and a failed `put` has no side effect: the state after the call is
the unchanged queue, so the rejected item was never stored and stays with
the caller.  Proved for both spec-modelled implementations. -/
theorem put_queuefull_iff {T : Type} (qf : Project.Fifo T)
    (ql : Project.Lifo T) (x y : T) :
    ((qf.put x).2 = Except.error Project.QueueFull.queueFull
        ↔ qf.len = qf.capacity) ∧
      (qf.len = qf.capacity → (qf.put x).1 = qf) ∧
      ((ql.put y).2 = Except.error Project.QueueFull.queueFull
        ↔ ql.len = ql.capacity) ∧
      (ql.len = ql.capacity → (ql.put y).1 = ql) := by
  refine ⟨?_, ?_, ?_, ?_⟩
  · by_cases h : qf.len = qf.capacity <;> simp [Project.Fifo.put, h]
  · intro h
    simp [Project.Fifo.put, h]
  · by_cases h : ql.len = ql.capacity <;> simp [Project.Lifo.put, h]
  · intro h
    simp [Project.Lifo.put, h]

/-- C3 witness: a full queue (capacity 0) rejects a `put` with `QueueFull`
and is left unchanged. -/
theorem put_queuefull_iff_witness :
    (Project.Fifo.with_capacity Nat 0).len
        = (Project.Fifo.with_capacity Nat 0).capacity ∧
      ((Project.Fifo.with_capacity Nat 0).put 7).2
        = Except.error Project.QueueFull.queueFull ∧
      ((Project.Fifo.with_capacity Nat 0).put 7).1
        = Project.Fifo.with_capacity Nat 0 :=
  ⟨by decide,
    (put_queuefull_iff (Project.Fifo.with_capacity Nat 0)
      (Project.Lifo.with_capacity Nat 0) 7 7).1.mpr (by decide),
    (put_queuefull_iff (Project.Fifo.with_capacity Nat 0)
      (Project.Lifo.with_capacity Nat 0) 7 7).2.1 (by decide)⟩

/-- C4: the `Error` enum of the project exercise is declared with no
variants, so it is uninhabited: no `Error` value can be constructed, and
every value of the trait method result type `Result<(), Error>` is
`Ok(())` — no implementation of the trait as declared can ever return
`Err`. -/
theorem error_uninhabited :
    (∀ e : Project.Error, False) ∧
      ∀ r : Except Project.Error Unit, r = Except.ok () := by
  constructor
  · exact fun e => nomatch e
  · intro r
    cases r with
    | ok u => cases u; rfl
    | error e => exact nomatch e

/-- C5: invariants preserved by every operation — for every queue reachable
from `with_capacity cap` by any sequence of `put`/`pop` calls,
`0 ≤ len ≤ capacity` holds, `is_empty` is true exactly when `len = 0`, and
`is_full` is true exactly when `len = capacity`.  Proved for both
spec-modelled implementations. -/
theorem invariants_preserved {T : Type} (cap : Nat)
    (ops : List (Project.Op T)) :
    (0 ≤ ((Project.Fifo.with_capacity T cap).applyOps ops).len ∧
      ((Project.Fifo.with_capacity T cap).applyOps ops).len
        ≤ ((Project.Fifo.with_capacity T cap).applyOps ops).capacity ∧
      (((Project.Fifo.with_capacity T cap).applyOps ops).is_empty = true
        ↔ ((Project.Fifo.with_capacity T cap).applyOps ops).len = 0) ∧
      (((Project.Fifo.with_capacity T cap).applyOps ops).is_full = true
        ↔ ((Project.Fifo.with_capacity T cap).applyOps ops).len
            = ((Project.Fifo.with_capacity T cap).applyOps ops).capacity)) ∧
    (0 ≤ ((Project.Lifo.with_capacity T cap).applyOps ops).len ∧
      ((Project.Lifo.with_capacity T cap).applyOps ops).len
        ≤ ((Project.Lifo.with_capacity T cap).applyOps ops).capacity ∧
      (((Project.Lifo.with_capacity T cap).applyOps ops).is_empty = true
        ↔ ((Project.Lifo.with_capacity T cap).applyOps ops).len = 0) ∧
      (((Project.Lifo.with_capacity T cap).applyOps ops).is_full = true
        ↔ ((Project.Lifo.with_capacity T cap).applyOps ops).len
            = ((Project.Lifo.with_capacity T cap).applyOps ops).capacity)) := by
  obtain ⟨hwf, _⟩ :=
    fifo_applyOps_wf ops (Project.Fifo.with_capacity T cap)
      (fifo_wf_with_capacity T cap)
  obtain ⟨hwl, _⟩ :=
    lifo_applyOps_wf ops (Project.Lifo.with_capacity T cap)
      (lifo_wf_with_capacity T cap)
  refine ⟨⟨Nat.zero_le _, hwf.hlen, ?_, ?_⟩, ⟨Nat.zero_le _, hwl.hlen, ?_, ?_⟩⟩
  · simp [Project.Fifo.is_empty]
  · simp [Project.Fifo.is_full]
  · simp [Project.Lifo.is_empty]
  · simp [Project.Lifo.is_full]

/-- C6: round-trip law — converting a borrowed sequence `s` into a queue
(capacity `s.length`, every element `put` in source order, never failing)
and then draining fully reproduces `s` unchanged for FIFO and `s` reversed
for LIFO; afterwards the queue is empty with its capacity unchanged. -/
theorem round_trip_law {T : Type} (s : List T) :
    (Project.Fifo.with_capacity T s.length).putListOk s = true ∧
      (Project.Fifo.from_slice s).drainAll.1 = s ∧
      (Project.Fifo.from_slice s).drainAll.2.is_empty = true ∧
      (Project.Fifo.from_slice s).drainAll.2.capacity = s.length ∧
      (Project.Lifo.with_capacity T s.length).putListOk s = true ∧
      (Project.Lifo.from_slice s).drainAll.1 = s.reverse ∧
      (Project.Lifo.from_slice s).drainAll.2.is_empty = true ∧
      (Project.Lifo.from_slice s).drainAll.2.capacity = s.length := by
  have hfree : (Project.Fifo.with_capacity T s.length).len + s.length
      ≤ (Project.Fifo.with_capacity T s.length).capacity := by
    simp only [Project.Fifo.with_capacity]
    omega
  have hfree2 : (Project.Lifo.with_capacity T s.length).len + s.length
      ≤ (Project.Lifo.with_capacity T s.length).capacity := by
    simp only [Project.Lifo.with_capacity]
    omega
  obtain ⟨hf1, hf2, _, hf4, hf5⟩ :=
    fifo_putList_spec s (Project.Fifo.with_capacity T s.length)
      (fifo_wf_with_capacity T s.length) hfree
  obtain ⟨hl1, hl2, _, hl4, hl5⟩ :=
    lifo_putList_spec s (Project.Lifo.with_capacity T s.length)
      (lifo_wf_with_capacity T s.length) hfree2
  have hdf := fifo_drainLoop_spec (Project.Fifo.from_slice s).len
    (Project.Fifo.from_slice s) hf1 rfl
  have hdl := lifo_drainLoop_spec (Project.Lifo.from_slice s).len
    (Project.Lifo.from_slice s) hl1 rfl
  have hl0 : (Project.Lifo.with_capacity T s.length).toListO = [] := by
    simp [Project.Lifo.toListO, Project.Lifo.with_capacity]
  refine ⟨hf5, ?_, ?_, ?_, hl5, ?_, ?_, ?_⟩
  · rw [Project.Fifo.drainAll, hdf.1]
    show (Project.Fifo.from_slice s).toListO.reduceOption = s
    rw [Project.Fifo.from_slice, hf2, fifo_toListO_with_capacity,
      List.nil_append, reduceOption_map_some]
  · rw [Project.Fifo.drainAll]
    simp [Project.Fifo.is_empty, hdf.2.1]
  · rw [Project.Fifo.drainAll, hdf.2.2.1]
    show (Project.Fifo.from_slice s).capacity = s.length
    rw [Project.Fifo.from_slice, hf4]
    rfl
  · rw [Project.Lifo.drainAll, hdl.1]
    show (Project.Lifo.from_slice s).toListO.reduceOption.reverse = s.reverse
    rw [Project.Lifo.from_slice, hl2, hl0, List.nil_append, reduceOption_map_some]
  · rw [Project.Lifo.drainAll]
    simp [Project.Lifo.is_empty, hdl.2.1]
  · rw [Project.Lifo.drainAll, hdl.2.2.1]
    show (Project.Lifo.from_slice s).capacity = s.length
    rw [Project.Lifo.from_slice, hl4]
    rfl

/-- A zero-capacity FIFO queue is a fixed point of every operation
sequence: `put` always fails without a side effect and `pop` finds the
queue empty. -/
theorem fifo_cap0_applyOps (T : Type) (ops : List (Project.Op T)) :
    (Project.Fifo.with_capacity T 0).applyOps ops
      = Project.Fifo.with_capacity T 0 := by
  induction ops with
  | nil => rfl
  | cons o os ih =>
    have hstep : (Project.Fifo.with_capacity T 0).applyOps (o :: os)
        = ((Project.Fifo.with_capacity T 0).applyOp o).applyOps os := rfl
    have hfix : (Project.Fifo.with_capacity T 0).applyOp o
        = Project.Fifo.with_capacity T 0 := by
      cases o with
      | put x => simp [Project.Fifo.applyOp, Project.Fifo.put, Project.Fifo.with_capacity]
      | pop => simp [Project.Fifo.applyOp, Project.Fifo.pop, Project.Fifo.with_capacity]
    rw [hstep, hfix, ih]

/-- A zero-capacity LIFO queue is a fixed point of every operation
sequence. -/
theorem lifo_cap0_applyOps (T : Type) (ops : List (Project.Op T)) :
    (Project.Lifo.with_capacity T 0).applyOps ops
      = Project.Lifo.with_capacity T 0 := by
  induction ops with
  | nil => rfl
  | cons o os ih =>
    have hstep : (Project.Lifo.with_capacity T 0).applyOps (o :: os)
        = ((Project.Lifo.with_capacity T 0).applyOp o).applyOps os := rfl
    have hfix : (Project.Lifo.with_capacity T 0).applyOp o
        = Project.Lifo.with_capacity T 0 := by
      cases o with
      | put x => simp [Project.Lifo.applyOp, Project.Lifo.put, Project.Lifo.with_capacity]
      | pop => simp [Project.Lifo.applyOp, Project.Lifo.pop, Project.Lifo.with_capacity]
    rw [hstep, hfix, ih]

/-- C7: zero-capacity edge case — after any sequence of operations on the
queue produced by `with_capacity 0`, `is_empty` and `is_full` are
simultaneously true, every `put` fails with `QueueFull` and leaves the
state unchanged, and every `pop` and `peek` returns nothing.  Proved for
both spec-modelled implementations. -/
theorem zero_capacity_degenerate {T : Type} (ops : List (Project.Op T))
    (x y : T) :
    (((Project.Fifo.with_capacity T 0).applyOps ops).is_empty = true ∧
      ((Project.Fifo.with_capacity T 0).applyOps ops).is_full = true ∧
      (((Project.Fifo.with_capacity T 0).applyOps ops).put x).2
        = Except.error Project.QueueFull.queueFull ∧
      (((Project.Fifo.with_capacity T 0).applyOps ops).put x).1
        = (Project.Fifo.with_capacity T 0).applyOps ops ∧
      ((Project.Fifo.with_capacity T 0).applyOps ops).pop
        = (none, (Project.Fifo.with_capacity T 0).applyOps ops) ∧
      ((Project.Fifo.with_capacity T 0).applyOps ops).peek = none) ∧
    (((Project.Lifo.with_capacity T 0).applyOps ops).is_empty = true ∧
      ((Project.Lifo.with_capacity T 0).applyOps ops).is_full = true ∧
      (((Project.Lifo.with_capacity T 0).applyOps ops).put y).2
        = Except.error Project.QueueFull.queueFull ∧
      (((Project.Lifo.with_capacity T 0).applyOps ops).put y).1
        = (Project.Lifo.with_capacity T 0).applyOps ops ∧
      ((Project.Lifo.with_capacity T 0).applyOps ops).pop
        = (none, (Project.Lifo.with_capacity T 0).applyOps ops) ∧
      ((Project.Lifo.with_capacity T 0).applyOps ops).peek = none) := by
  rw [fifo_cap0_applyOps, lifo_cap0_applyOps]
  refine ⟨⟨?_, ?_, ?_, ?_, ?_, ?_⟩, ⟨?_, ?_, ?_, ?_, ?_, ?_⟩⟩
  · simp [Project.Fifo.is_empty, Project.Fifo.with_capacity]
  · simp [Project.Fifo.is_full, Project.Fifo.with_capacity]
  · simp [Project.Fifo.put, Project.Fifo.with_capacity]
  · simp [Project.Fifo.put, Project.Fifo.with_capacity]
  · simp [Project.Fifo.pop, Project.Fifo.with_capacity]
  · simp [Project.Fifo.peek, Project.Fifo.with_capacity]
  · simp [Project.Lifo.is_empty, Project.Lifo.with_capacity]
  · simp [Project.Lifo.is_full, Project.Lifo.with_capacity]
  · simp [Project.Lifo.put, Project.Lifo.with_capacity]
  · simp [Project.Lifo.put, Project.Lifo.with_capacity]
  · simp [Project.Lifo.pop, Project.Lifo.with_capacity]
  · simp [Project.Lifo.peek, Project.Lifo.with_capacity]

/-- C8: peek contract — on every queue reachable from `with_capacity` by
`put`/`pop` sequences, `peek` returns exactly the element the next `pop`
would remove (`peek` is a pure read of the state, so it has no side effect
and two consecutive calls return the same value), and `peek` returns
nothing exactly when the queue is empty.  Proved for both spec-modelled
implementations. -/
theorem peek_contract {T : Type} (cap : Nat) (ops : List (Project.Op T)) :
    (((Project.Fifo.with_capacity T cap).applyOps ops).peek
        = (((Project.Fifo.with_capacity T cap).applyOps ops).pop).1 ∧
      ((Project.Fifo.with_capacity T cap).applyOps ops).peek
        = ((Project.Fifo.with_capacity T cap).applyOps ops).peek ∧
      (((Project.Fifo.with_capacity T cap).applyOps ops).peek = none
        ↔ ((Project.Fifo.with_capacity T cap).applyOps ops).is_empty = true)) ∧
    (((Project.Lifo.with_capacity T cap).applyOps ops).peek
        = (((Project.Lifo.with_capacity T cap).applyOps ops).pop).1 ∧
      ((Project.Lifo.with_capacity T cap).applyOps ops).peek
        = ((Project.Lifo.with_capacity T cap).applyOps ops).peek ∧
      (((Project.Lifo.with_capacity T cap).applyOps ops).peek = none
        ↔ ((Project.Lifo.with_capacity T cap).applyOps ops).is_empty = true)) := by
  obtain ⟨hwf, _⟩ :=
    fifo_applyOps_wf ops (Project.Fifo.with_capacity T cap)
      (fifo_wf_with_capacity T cap)
  obtain ⟨hwl, _⟩ :=
    lifo_applyOps_wf ops (Project.Lifo.with_capacity T cap)
      (lifo_wf_with_capacity T cap)
  exact ⟨⟨fifo_peek_eq_pop_fst _, rfl, fifo_peek_none_iff _ hwf⟩,
    ⟨lifo_peek_eq_pop_fst _, rfl, lifo_peek_none_iff _ hwl⟩⟩

/-- C9: totality of the non-`put` operations — on an empty queue, `pop`
and `peek` return an absence (`none`) and leave the state unchanged rather
than failing; in the embedding all of `pop`, `peek`, `is_empty` and
`is_full` are total functions, and only `put` has an error channel in its
result type.  Proved for the two spec-modelled implementations and for the
vector-backed `Fifo` of the generics exercise. -/
theorem non_put_total {T : Type} (qf : Project.Fifo T) (ql : Project.Lifo T)
    (qg : Generics.Fifo T) (hf : qf.is_empty = true) (hl : ql.is_empty = true)
    (hg : qg.elements = []) :
    qf.pop = (none, qf) ∧ qf.peek = none ∧ ql.pop = (none, ql) ∧
      ql.peek = none ∧ qg.pop = (none, qg) := by
  have hf0 : qf.len = 0 := by
    simpa [Project.Fifo.is_empty] using hf
  have hl0 : ql.len = 0 := by
    simpa [Project.Lifo.is_empty] using hl
  refine ⟨?_, ?_, ?_, ?_, ?_⟩
  · simp [Project.Fifo.pop, hf0]
  · simp [Project.Fifo.peek, hf0]
  · simp [Project.Lifo.pop, hl0]
  · simp [Project.Lifo.peek, hl0]
  · simp [Generics.Fifo.pop, hg]

/-- C9 witness: the totality statement instantiated at concrete empty
queues of capacity 2 and the empty generics Fifo. -/
theorem non_put_total_witness :
    (Project.Fifo.with_capacity Nat 2).is_empty = true ∧
      (Project.Lifo.with_capacity Nat 2).is_empty = true ∧
      (Generics.Fifo.new Nat).elements = [] ∧
      (Project.Fifo.with_capacity Nat 2).pop
        = (none, Project.Fifo.with_capacity Nat 2) ∧
      (Project.Lifo.with_capacity Nat 2).peek = none ∧
      (Generics.Fifo.new Nat).pop = (none, Generics.Fifo.new Nat) :=
  ⟨by decide, by decide, by decide,
    (non_put_total (Project.Fifo.with_capacity Nat 2)
      (Project.Lifo.with_capacity Nat 2) (Generics.Fifo.new Nat)
      (by decide) (by decide) (by decide)).1,
    (non_put_total (Project.Fifo.with_capacity Nat 2)
      (Project.Lifo.with_capacity Nat 2) (Generics.Fifo.new Nat)
      (by decide) (by decide) (by decide)).2.2.2.1,
    (non_put_total (Project.Fifo.with_capacity Nat 2)
      (Project.Lifo.with_capacity Nat 2) (Generics.Fifo.new Nat)
      (by decide) (by decide) (by decide)).2.2.2.2⟩

/-- C10: the `Fifo` of the generics exercise is unbounded — `new` starts
from the empty vector with no capacity parameter, `put` accepts every item
unconditionally (it returns only the new state, with the vector one
longer), and after `put`ting `n` elements with no pops, each of the first
`n` successive `pop` calls returns `some`. -/
theorem gfifo_unbounded {T : Type} (q : Generics.Fifo T) (x : T)
    (as : List T) (k : Nat) (hk : k < as.length) :
    (Generics.Fifo.new T).elements = [] ∧
      (q.put x).elements.length = q.elements.length + 1 ∧
      (((Generics.Fifo.popState)^[k]
        ((Generics.Fifo.new T).putList as)).pop).1.isSome = true := by
  refine ⟨rfl, ?_, ?_⟩
  · simp [Generics.Fifo.put]
  · rw [gfifo_pop_fst, List.getLast?_isSome]
    have hlen : ((Generics.Fifo.popState)^[k]
        ((Generics.Fifo.new T).putList as)).elements.length
        = as.length - k := by
      rw [gfifo_iterate_popState_length, gfifo_putList_elements]
      simp [Generics.Fifo.new]
    intro hnil
    rw [hnil] at hlen
    simp only [List.length_nil] at hlen
    omega

/-- C10 witness: after putting three elements and popping once, the next
pop still returns a value. -/
theorem gfifo_unbounded_witness :
    (1 < ([5, 6, 7] : List Nat).length) ∧
      (((Generics.Fifo.popState)^[1]
        ((Generics.Fifo.new Nat).putList [5, 6, 7])).pop).1.isSome = true :=
  ⟨by decide,
    (gfifo_unbounded (Generics.Fifo.new Nat) 0 [5, 6, 7] 1 (by decide)).2.2⟩

/-- C5 witness: the invariants instantiated at capacity 2 after two puts
and one pop. -/
theorem invariants_preserved_witness :
    ((Project.Fifo.with_capacity Nat 2).applyOps
        [Project.Op.put 1, Project.Op.put 2, Project.Op.pop]).len
      ≤ ((Project.Fifo.with_capacity Nat 2).applyOps
        [Project.Op.put 1, Project.Op.put 2, Project.Op.pop]).capacity ∧
    (((Project.Lifo.with_capacity Nat 2).applyOps
        [Project.Op.put 1, Project.Op.put 2, Project.Op.pop]).is_empty = true
      ↔ ((Project.Lifo.with_capacity Nat 2).applyOps
        [Project.Op.put 1, Project.Op.put 2, Project.Op.pop]).len = 0) :=
  ⟨(invariants_preserved 2 [Project.Op.put 1, Project.Op.put 2, Project.Op.pop]).1.2.1,
    (invariants_preserved 2 [Project.Op.put 1, Project.Op.put 2, Project.Op.pop]).2.2.2.1⟩

/-- C6 witness: the round trip instantiated at the borrowed sequence
`[1, 2]`. -/
theorem round_trip_law_witness :
    (Project.Fifo.from_slice [1, 2] : Project.Fifo Nat).drainAll.1 = [1, 2] ∧
      (Project.Lifo.from_slice [1, 2] : Project.Lifo Nat).drainAll.1 = [2, 1] :=
  ⟨(round_trip_law [1, 2]).2.1, (round_trip_law [1, 2]).2.2.2.2.2.1⟩

/-- C7 witness: the degenerate queue after one attempted put still rejects
puts and yields nothing. -/
theorem zero_capacity_degenerate_witness :
    (((Project.Fifo.with_capacity Nat 0).applyOps [Project.Op.put 3]).put 1).2
        = Except.error Project.QueueFull.queueFull ∧
      ((Project.Lifo.with_capacity Nat 0).applyOps [Project.Op.put 3]).peek
        = none :=
  ⟨(zero_capacity_degenerate [Project.Op.put 3] 1 1).1.2.2.1,
    (zero_capacity_degenerate [Project.Op.put 3] 1 1).2.2.2.2.2.2⟩

/-- C8 witness: the peek contract instantiated at capacity 2 after one
put. -/
theorem peek_contract_witness :
    ((Project.Fifo.with_capacity Nat 2).applyOps [Project.Op.put 5]).peek
      = (((Project.Fifo.with_capacity Nat 2).applyOps [Project.Op.put 5]).pop).1 :=
  (peek_contract 2 [Project.Op.put 5]).1.1
